import Mathlib

/-!
Verification development for the http-forward reverse tunnel.

The Rust sources are shallowly embedded: byte streams become `List Nat`
(each element one byte), the bincode wire codec of `src/protocol.rs`
becomes explicit encode/decode functions, the `Host` sniffer of
`src/http.rs` becomes a fuel-indexed state machine mirroring its
`State::Start` / `State::ParseHeader` loop, and the shared maps of
`src/shared.rs` become finite maps represented by their lookup
functions. Blocking reads are modelled as delivering all currently
available bytes up to the free buffer space on each call.
-/

set_option maxRecDepth 10000

namespace HttpForward

/-! ## Byte-level helpers -/

/-- Little-endian byte encoding of `n` on `k` bytes, as bincode's
fixed-width integer layout writes it. -/
def leBytes : Nat → Nat → List Nat
  | 0, _ => []
  | k + 1, n => n % 256 :: leBytes k (n / 256)

/-- Value of a little-endian byte list. -/
def leVal : List Nat → Nat
  | [] => 0
  | b :: rest => b + 256 * leVal rest

/-- Big-endian bytes of a `u16`, as `u16::to_be_bytes` produces in
`Protocol::send` (src/protocol.rs line 59). -/
def u16be (n : Nat) : List Nat := [n / 256 % 256, n % 256]

/-- Value of the two length-prefix bytes, as `u16::from_be_bytes`
reads them in `Receiver::recv` (src/protocol.rs line 102). -/
def u16beVal (a b : Nat) : Nat := 256 * a + b

/-- Bytes of an ASCII string (the model of `str::as_bytes`). -/
def strBytes (s : String) : List Nat := s.data.map Char.toNat

/-! ## The control protocol (src/protocol.rs)

`Protocol` carries `String` and `Vec<u8>` payloads; both are modelled
by their byte lists, so the bincode encodings of a string and of a byte
vector coincide (an 8-byte little-endian length followed by the raw
bytes), exactly as in bincode's legacy layout used by
`bincode::serialize` / `bincode::deserialize`. -/

/-- The forwarded-request record `Request { key, domain }`. -/
structure Request where
  key : List Nat
  domain : List Nat
deriving DecidableEq

/-- The seven control-frame variants of `enum Protocol`. -/
inductive Protocol
  | register (domains : List (List Nat))
  | ok
  | error
  | request (req : Request)
  | response (key : List Nat)
  | ping
  | pong
deriving DecidableEq

/-- Bincode encoding of a byte string or string: `u64` little-endian
length, then the raw bytes. -/
def encBytes (b : List Nat) : List Nat := leBytes 8 b.length ++ b

/-- Bincode encoding of a `Protocol` frame: a `u32` little-endian
variant tag, then the fields in declaration order. -/
def encodeProtocol : Protocol → List Nat
  | .register ds => leBytes 4 0 ++ leBytes 8 ds.length ++ (ds.map encBytes).flatten
  | .ok => leBytes 4 1
  | .error => leBytes 4 2
  | .request r => leBytes 4 3 ++ encBytes r.key ++ encBytes r.domain
  | .response k => leBytes 4 4 ++ encBytes k
  | .ping => leBytes 4 5
  | .pong => leBytes 4 6

/-- Read a `k`-byte little-endian fixed-width integer from the front of
a byte list, returning the value and the remaining bytes. -/
def decodeFixed (k : Nat) (bs : List Nat) : Option (Nat × List Nat) :=
  if k ≤ bs.length then some (leVal (bs.take k), bs.drop k) else none

/-- Read a length-prefixed byte string. -/
def decodeBytesF (bs : List Nat) : Option (List Nat × List Nat) :=
  match decodeFixed 8 bs with
  | some (n, r) => if n ≤ r.length then some (r.take n, r.drop n) else none
  | none => none

/-- Read `n` length-prefixed strings. -/
def decodeStrings : Nat → List Nat → Option (List (List Nat) × List Nat)
  | 0, bs => some ([], bs)
  | n + 1, bs =>
    match decodeBytesF bs with
    | some (s, r) =>
      match decodeStrings n r with
      | some (ss, r2) => some (s :: ss, r2)
      | none => none
    | none => none

/-- Bincode decoding of a `Protocol` frame: the inverse dispatch on the
`u32` variant tag. -/
def decodeProtocol (bs : List Nat) : Option (Protocol × List Nat) :=
  match decodeFixed 4 bs with
  | none => none
  | some (tag, r) =>
    if tag = 0 then
      match decodeFixed 8 r with
      | some (n, r1) =>
        match decodeStrings n r1 with
        | some (ds, r2) => some (.register ds, r2)
        | none => none
      | none => none
    else if tag = 1 then some (.ok, r)
    else if tag = 2 then some (.error, r)
    else if tag = 3 then
      match decodeBytesF r with
      | some (k, r1) =>
        match decodeBytesF r1 with
        | some (d, r2) => some (.request ⟨k, d⟩, r2)
        | none => none
      | none => none
    else if tag = 4 then
      match decodeBytesF r with
      | some (k, r1) => some (.response k, r1)
      | none => none
    else if tag = 5 then some (.ping, r)
    else if tag = 6 then some (.pong, r)
    else none

/-- The model of `bincode::deserialize`: decode a frame from the
payload buffer (trailing bytes are not rejected by bincode's legacy
`deserialize` on a slice). -/
def deserializeProtocol (bs : List Nat) : Option Protocol :=
  match decodeProtocol bs with
  | some (p, _) => some p
  | none => none

/-- The model of `bincode::serialized_size`. -/
def serializedSize (p : Protocol) : Nat := (encodeProtocol p).length

/-- Model of `Protocol::send` (src/protocol.rs lines 52-62): encode,
assert `len + 2 < u16::MAX`, and write the big-endian `u16` length
followed by the payload as one buffer. The `debug_assert!` is modelled
as a guard: `none` is the assertion firing, `some out` the exact bytes
written to the stream. -/
def Protocol.send (p : Protocol) : Option (List Nat) :=
  let len := serializedSize p
  if len + 2 < 65535 then some (u16be (len % 65536) ++ encodeProtocol p) else none

/-! ## Receiver::recv (src/protocol.rs lines 92-128)

The resumable two-state machine. `recvLoopF` mirrors the `loop` body:
each iteration performs one `stream.read` (modelled as delivering
`min space available` bytes), then runs the `ReadLen` / `ReadPayload`
arm. The fuel argument only bounds the number of iterations; the
initial fuel `bs.length + 2` always suffices. -/

/-- The `enum State` of the receiver. -/
inductive RecvState
  | readLen (acc : List Nat)
  | readPayload (need : Nat) (acc : List Nat)

/-- Possible results of one `recv` call on a fresh receiver. -/
inductive RecvResult
  | frame (p : Protocol)
  | closed
  | eofError
  | decodeError
deriving DecidableEq

def recvLoopF : Nat → RecvState → List Nat → RecvResult
  | 0, _, _ => .eofError
  | f + 1, .readLen acc, bs =>
    let n := min (2 - acc.length) bs.length
    let acc2 := acc ++ bs.take n
    if acc2.length = 2 then
      recvLoopF f (.readPayload (u16beVal (acc2.getD 0 0) (acc2.getD 1 0)) []) (bs.drop n)
    else if n = 0 then
      if acc2.length = 0 then .closed else .eofError
    else recvLoopF f (.readLen acc2) (bs.drop n)
  | f + 1, .readPayload need acc, bs =>
    let n := min (need - acc.length) bs.length
    let acc2 := acc ++ bs.take n
    if acc2.length = need then
      match deserializeProtocol acc2 with
      | some p => .frame p
      | none => .decodeError
    else if n = 0 then .eofError
    else recvLoopF f (.readPayload need acc2) (bs.drop n)

/-- One `recv` call of a fresh `Receiver` against a byte source that
ends after `bs`. -/
def Receiver.recv (bs : List Nat) : RecvResult :=
  recvLoopF (bs.length + 2) (.readLen []) bs

/-! ## The Host sniffer (src/http.rs)

`parse_domain` reads into a buffer of capacity 1024 that grows by
`reserve(1024)` (amortized: capacity doubles, so 1024 → 2048 → 4096) up
to `MAX_BUF_SIZE = 4096`, and scans for CRLF-delimited header lines.
The byte source is the full external input `input : List Nat`; the
buffer contents after `read` bytes have been read are `input.take read`,
so the scan works on `input` bounded by the index `read`. -/

/-- Model of `find_r(start, end, s)` (src/http.rs lines 111-118): index
of the first `b'\r'` (13) in `s[start..stop]`. The auxiliary walks the
list `s.drop start` keeping the absolute index. -/
def findRAux : List Nat → Nat → Nat → Option Nat
  | [], _, _ => none
  | c :: rest, i, stop =>
    if i < stop then (if c = 13 then some i else findRAux rest (i + 1) stop) else none

def find_r (s : List Nat) (start stop : Nat) : Option Nat :=
  findRAux (s.drop start) start stop

/-- Model of `eq_host` (src/http.rs lines 129-135): the name is exactly
four bytes and equals `host` after OR-ing each byte with 32. -/
def eq_host (s : List Nat) : Bool :=
  match s with
  | [a, b, c, d] => (a ||| 32 = 104 : Bool) && (b ||| 32 = 111 : Bool)
      && (c ||| 32 = 115 : Bool) && (d ||| 32 = 116 : Bool)
  | _ => false

/-- The subslice `s[a..b]`. -/
def slice (s : List Nat) (a b : Nat) : List Nat := (s.take b).drop a

/-- Model of `extract_domain` (src/http.rs lines 120-127): split the
line on `b':'`; if the first segment is `host`, return the second
segment (so anything after a second colon — a trailing port — is cut
off), else nothing. -/
def extract_domain (line : List Nat) : Option (List Nat) :=
  match line.splitOn 58 with
  | name :: v :: _ => if eq_host name then some v else none
  | _ => none

/-- Byte-level model of `str::trim` for ASCII whitespace (the sniffed
host values are ASCII; `char::is_whitespace` on ASCII bytes is exactly
this set). -/
def isWsByte (b : Nat) : Bool := b = 32 || (9 ≤ b && b ≤ 13)

def trimBytes (s : List Nat) : List Nat :=
  ((s.dropWhile isWsByte).reverse.dropWhile isWsByte).reverse

/-- The scanner state of `parse_domain`: `State::Start` before the
request line's CR has been seen, `State::ParseHeader(pos)` afterwards,
with `pos` the start index of the next unconsumed header line. -/
inductive SnifferState
  | start
  | parseHeader (pos : Nat)
deriving DecidableEq

/-- The result of `parse_domain`: the trimmed host value and the whole
buffer read so far, or one of the two failures. A UTF-8 validity error
cannot arise in the byte-list model, where `from_utf8` is the
identity. -/
inductive ParseOutcome
  | done (domain : List Nat) (buf : List Nat)
  | eofError
  | headerTooLarge
deriving DecidableEq

/-- The inner line loop of the `State::ParseHeader` arm (src/http.rs
lines 81-96): repeatedly find the next CR below `len`, try
`extract_domain` on the line, and advance past failed lines. The fuel
is always called with `len`, which bounds the number of iterations
since each line consumes at least two bytes. Exhausted fuel and a
missing CR both park the scanner at the current line start. -/
def scanHeaderF : Nat → List Nat → Nat → Nat → SnifferState ⊕ List Nat
  | 0, _, _, pos => .inl (.parseHeader pos)
  | f + 1, s, len, pos =>
    match find_r s pos len with
    | some e =>
      match extract_domain (slice s pos e) with
      | some v => .inr v
      | none => scanHeaderF f s len (e + 2)
    | none => .inl (.parseHeader pos)

/-- One pass of the labelled scan loop `'a` (src/http.rs lines 75-98)
over the first `len` bytes of `s`: either a host value is found
(`Sum.inr`) or the scanner parks in a resumable state (`Sum.inl`). -/
def scanStep (s : List Nat) (len : Nat) : SnifferState → SnifferState ⊕ List Nat
  | .start =>
    match find_r s 0 len with
    | some p => scanHeaderF len s len (p + 2)
    | none => .inl .start
  | .parseHeader pos => scanHeaderF len s len pos

/-- Model of `Vec::reserve(1024)` on a full buffer of capacity `cap`:
amortized growth to `max (2 * cap) (cap + 1024)`. -/
def reserveCap (cap : Nat) : Nat := max (2 * cap) (cap + 1024)

/-- The read loop of `parse_domain` (src/http.rs lines 68-108). Each
iteration reads `min (cap - read) (input.length - read)` fresh bytes
(a blocking read delivering everything available up to the free buffer
space), returns `UnexpectedEof` on a zero-byte read, scans, and then
either returns the match, grows the buffer, or fails with
`HeaderTooLarge` once 4096 bytes are exhausted. Fuel `input.length`
always suffices since every continuing iteration consumes a byte. -/
def parseLoopF : Nat → List Nat → Nat → Nat → SnifferState → ParseOutcome
  | 0, _, _, _, _ => .eofError
  | f + 1, input, read, cap, st =>
    let n := min (cap - read) (input.length - read)
    if n = 0 then .eofError
    else
      let read2 := read + n
      match scanStep input read2 st with
      | .inr v => .done (trimBytes v) (input.take read2)
      | .inl st2 =>
        if read2 = cap then
          if read2 < 4096 then parseLoopF f input read2 (reserveCap cap) st2
          else .headerTooLarge
        else parseLoopF f input read2 cap st2

/-- Model of `parse_domain` (src/http.rs lines 62-109) on the full
external byte stream `input`. -/
def parse_domain (input : List Nat) : ParseOutcome :=
  parseLoopF input.length input 0 1024 .start

/-- A request whose single `Host` header line carries a value of `pad`
bytes of `a`: the request line is `A\r\n`, the header line is
`Host:aaa...a\r\n`. With `pad = 4087` the header's CR is the 4096th
byte of the stream; with `pad = 4088` it is the 4097th. -/
def hostBoundaryInput (pad : Nat) : List Nat :=
  strBytes "A\r\n" ++ (strBytes "Host:" ++ (List.replicate pad 97 ++ [13, 10]))

/-! ## HTTP status responses (src/http.rs lines 12-37) -/

/-- The `Status` record. -/
structure Status where
  code : Nat
  reasonPhrase : String

/-- Bytes written by `Status::send` (src/http.rs lines 26-32): the
formatted status line with an explicit zero content length. -/
def Status.sendBytes (s : Status) : List Nat :=
  strBytes ("HTTP/1.1 " ++ toString s.code ++ " " ++ s.reasonPhrase
    ++ "\r\ncontent-length: 0\r\n\r\n")

def BAD_GATEWAY : Status := ⟨502, "Bad Gateway"⟩

def GATEWAY_TIMEOUT : Status := ⟨504, "Gateway Timeout"⟩

/-! ## Shared state (src/shared.rs)

The two concurrent maps are modelled by their lookup functions. The
Registry (`ClientChannel`) maps a domain to the owning session's
producer handle; sessions are identified by a `Nat` standing for the
`UnboundedSender` clone held for that session. The Rendezvous Table
(`ConnChannel`) maps a 16-byte key to a live one-shot slot; the model
records slot presence. -/

/-- The Registry lookup function: `HashMap<String, UnboundedSender>`
keyed by domain, the value identifying the owning session. -/
def Registry : Type := String → Option Nat

/-- `HashMap::insert`: the inserted key shadows any previous entry. -/
def mapInsert (m : Registry) (d : String) (o : Nat) : Registry :=
  fun x => if x = d then some o else m x

/-- `HashMap::remove` of one key. -/
def mapRemove (m : Registry) (d : String) : Registry :=
  fun x => if x = d then none else m x

/-- Model of `ClientChannel::exists` (src/shared.rs lines 37-45). -/
def registryExists (m : Registry) (domains : List String) : Bool :=
  domains.any fun d => (m d).isSome

/-- Model of `ClientChannel::add` (src/shared.rs lines 51-58): insert
every listed domain, pointing at the session `owner`, with no
conflict check. -/
def registryAdd (m : Registry) (domains : List String) (owner : Nat) : Registry :=
  domains.foldl (fun acc d => mapInsert acc d owner) m

/-- Model of `ClientChannel::remove` (src/shared.rs lines 60-65). -/
def registryRemove (m : Registry) (domains : List String) : Registry :=
  domains.foldl (fun acc d => mapRemove acc d) m

/-- Model of `ClientChannel::get` (src/shared.rs lines 47-49). -/
def registryGet (m : Registry) (d : String) : Option Nat := m d

/-- The Rendezvous Table: presence of a live slot per key. -/
def ConnTable : Type := List Nat → Bool

/-- Model of `ConnChannel::add` (src/shared.rs lines 77-81): insert a
fresh one-shot slot under `key`. -/
def connAdd (t : ConnTable) (k : List Nat) : ConnTable :=
  fun x => if x = k then true else t x

/-- Model of `ConnChannel::remove` (src/shared.rs lines 83-85):
atomically take the sender out, reporting whether one was present. -/
def connRemove (t : ConnTable) (k : List Nat) : Bool × ConnTable :=
  (t k, fun x => if x = k then false else t x)

/-! ## Server engine models (src/server.rs) -/

/-- The rendezvous deadline of `handle_http`
(`sleep(Duration::from_secs(15))`, src/server.rs line 237). -/
def rendezvousTimeoutSecs : Nat := 15

/-- Which arm of the `tokio::select!` on src/server.rs lines 229-243
fires first: the rendezvous waiter resolving with a back-channel, or
the 15-second timer. The select drops the losing arm, so exactly one
fires. -/
inductive RaceOutcome
  | response
  | timeout
deriving DecidableEq

/-- Observable effects of one external connection's rendezvous phase. -/
structure RendezvousEffects where
  spliced : Bool
  extBytes : List Nat
  extShutdown : Bool
  table : ConnTable

/-- Model of the rendezvous phase of `handle_http` (src/server.rs lines
227-243) joined with the `Response{key}` arm of `handle_client`
(src/server.rs lines 141-151): the slot is added, then either the
Client's back-channel takes it (`handle_client` removes the slot and
fulfils the sender, `handle_http` splices), or the timer fires
(`handle_http` writes the 504 response, removes the slot and shuts the
external socket down). -/
def rendezvous (t0 : ConnTable) (k : List Nat) (race : RaceOutcome) : RendezvousEffects :=
  let t1 := connAdd t0 k
  match race with
  | .response =>
    let r := connRemove t1 k
    if r.1 then
      { spliced := true, extBytes := [], extShutdown := false, table := r.2 }
    else
      { spliced := false, extBytes := [], extShutdown := true, table := r.2 }
  | .timeout =>
    { spliced := false, extBytes := GATEWAY_TIMEOUT.sendBytes, extShutdown := true
      table := (connRemove t1 k).2 }

/-- Bytes delivered to the origin-bound back-channel on a successful
rendezvous (src/server.rs lines 231-234): `write_all(&result.buf)`
followed by the external-to-back-channel direction of
`copy_bidirectional`, which relays every remaining external byte. -/
def backChannelBytes (input : List Nat) : Option (List Nat) :=
  match parse_domain input with
  | .done _ b => some (b ++ input.drop b.length)
  | _ => none

/-- The reply sent to a registering Client. -/
inductive RegisterReply
  | accepted
  | rejected
deriving DecidableEq

/-- Observable outcome of a Client session whose first frame is
`Register{domains}`. -/
structure RegisterOutcome where
  reply : RegisterReply
  sessionRan : Bool
  shutdown : Bool
  registry : Registry

/-- Model of the `Register` dispatch of `handle_client` (src/server.rs
lines 128-140) together with `handle_register` (lines 157-185), run
without interleaved registrations: a non-empty, conflict-free list is
answered `Ok`, the session runs (`sessionFails` abstracts its result),
and `shared.client.remove(&domains)` runs unconditionally afterwards;
otherwise `Error` is sent and the stream is shut down with the
Registry untouched. -/
def handleClientRegister (m : Registry) (domains : List String) (owner : Nat)
    (sessionFails : Bool) : RegisterOutcome :=
  if !domains.isEmpty && !registryExists m domains then
    { reply := .accepted, sessionRan := true, shutdown := !sessionFails
      registry := registryRemove (registryAdd m domains owner) domains }
  else
    { reply := .rejected, sessionRan := false, shutdown := true, registry := m }

/-- Model of the interleaving that the suspension point between the
`exists` guard (src/server.rs line 130) and `ClientChannel::add`
(src/server.rs line 163, reached only after awaiting `Ok.send`)
permits: sessions A and B both evaluate the guard before either runs
`add`. Returns whether each session passed its guard, plus the final
Registry. -/
def registerRace (domains : List String) : Bool × Bool × Registry :=
  let m0 : Registry := fun _ => none
  let aPasses := !registryExists m0 domains
  let bPasses := !registryExists m0 domains
  let m1 := if aPasses then registryAdd m0 domains 0 else m0
  let m2 := if bPasses then registryAdd m1 domains 1 else m1
  (aPasses, bPasses, m2)

/-! ## Client engine model (src/client.rs) -/

/-- What the Client's main loop does with an incoming `Request` frame
(src/client.rs lines 79-89): `forward.get(&req.domain).unwrap()` — a
missing mapping makes `unwrap` panic, aborting the control loop;
otherwise a forward task is spawned towards the configured
destination. -/
inductive ClientAction
  | unwrapPanicked
  | spawnedForward (destination : String)
deriving DecidableEq

/-- The `--forward` configuration as the lookup function of the
`forward` HashMap built in `run` (src/client.rs lines 56-61). -/
def clientHandleRequest (forward : String → Option String) (domain : String) : ClientAction :=
  match forward domain with
  | some dst => .spawnedForward dst
  | none => .unwrapPanicked

/-! ## Registry lemmas -/

theorem registryRemove_cons (m : Registry) (a : String) (tl : List String) :
    registryRemove m (a :: tl) = registryRemove (mapRemove m a) tl := rfl

theorem registryRemove_not_mem (ds : List String) (m : Registry) (d : String)
    (h : d ∉ ds) : registryRemove m ds d = m d := by
  induction ds generalizing m with
  | nil => rfl
  | cons a tl ih =>
    rw [registryRemove_cons, ih _ fun hm => h (List.mem_cons_of_mem _ hm)]
    have hda : d ≠ a := fun he => h (he ▸ List.mem_cons_self a tl)
    simp [mapRemove, hda]

theorem registryRemove_mem (ds : List String) (m : Registry) (d : String)
    (h : d ∈ ds) : registryRemove m ds d = none := by
  induction ds generalizing m with
  | nil => cases h
  | cons a tl ih =>
    rw [registryRemove_cons]
    by_cases hd : d ∈ tl
    · exact ih _ hd
    · have hda : d = a := by
        rcases List.mem_cons.mp h with h1 | h2
        · exact h1
        · exact absurd h2 hd
      subst hda
      rw [registryRemove_not_mem tl _ _ hd]
      simp [mapRemove]

/-! ## Claim theorems for the engines -/

/-- C5: on a Client session whose first frame is `Register{hosts}`, a
non-empty host list with no Registry collision is answered `Ok`, the
registered session runs, and the hosts are removed from the Registry on
exit regardless of how the session ended; an empty or colliding list is
answered `Error`, the connection is shut down, and the Registry is left
untouched. -/
theorem handle_client_register_spec :
    ∀ (m : Registry) (domains : List String) (owner : Nat) (sessionFails : Bool),
      (domains ≠ [] → registryExists m domains = false →
        (handleClientRegister m domains owner sessionFails).reply = .accepted ∧
        (handleClientRegister m domains owner sessionFails).sessionRan = true ∧
        ∀ d ∈ domains, (handleClientRegister m domains owner sessionFails).registry d = none) ∧
      ((domains = [] ∨ registryExists m domains = true) →
        (handleClientRegister m domains owner sessionFails).reply = .rejected ∧
        (handleClientRegister m domains owner sessionFails).sessionRan = false ∧
        (handleClientRegister m domains owner sessionFails).shutdown = true ∧
        (handleClientRegister m domains owner sessionFails).registry = m) := by
  intro m domains owner sessionFails
  constructor
  · intro hne hex
    have hcond : (!domains.isEmpty && !registryExists m domains) = true := by
      simp [hex, List.isEmpty_iff, hne]
    have h1 : handleClientRegister m domains owner sessionFails
        = { reply := .accepted, sessionRan := true, shutdown := !sessionFails
            registry := registryRemove (registryAdd m domains owner) domains } := by
      simp [handleClientRegister, hcond]
    rw [h1]
    exact ⟨rfl, rfl, fun d hd => registryRemove_mem domains _ d hd⟩
  · intro hcase
    have hcond : (!domains.isEmpty && !registryExists m domains) = false := by
      rcases hcase with h1 | h2
      · simp [h1]
      · simp [h2]
    have h1 : handleClientRegister m domains owner sessionFails
        = { reply := .rejected, sessionRan := false, shutdown := true, registry := m } := by
      simp [handleClientRegister, hcond]
    rw [h1]
    exact ⟨rfl, rfl, rfl, rfl⟩

theorem handle_client_register_spec_witness :
    (handleClientRegister (fun _ => none) ["x"] 0 false).reply = .accepted ∧
    (handleClientRegister (fun _ => some 0) ["x"] 1 true).reply = .rejected :=
  ⟨((handle_client_register_spec (fun _ => none) ["x"] 0 false).1 (by simp) rfl).1,
   ((handle_client_register_spec (fun _ => some 0) ["x"] 1 true).2 (Or.inr rfl)).1⟩

/-- C4, failing run: the suspension point between the `exists` guard
and `ClientChannel::add` lets two sessions that both register `x`
pass the guard before either adds. Session B's `Register` then lists a
host that is already owned at the moment B's `add` runs (third
conjunct), yet B passes (second conjunct) and its insert takes effect,
stealing the entry (fourth conjunct) — no atomic failure occurs. -/
theorem register_race_violates_exclusivity :
    (registerRace ["x"]).1 = true ∧
    (registerRace ["x"]).2.1 = true ∧
    registryExists (registryAdd (fun _ => none) ["x"] 0) ["x"] = true ∧
    (registerRace ["x"]).2.2 "x" = some 1 :=
  ⟨rfl, rfl, rfl, rfl⟩

/-- C3: for every rendezvous slot created for a `Request{key}`, the
select on the waiter and the 15-second timer produces exactly one of
the two outcomes — splice on a matching `Response{key}`, or the literal
504 response plus shutdown on expiry — and in either case the slot is
gone from the Rendezvous Table afterwards. -/
theorem rendezvous_exactly_one :
    ∀ (t : ConnTable) (k : List Nat) (race : RaceOutcome),
      ((rendezvous t k race).spliced = true ↔ race = .response) ∧
      ((rendezvous t k race).extBytes = GATEWAY_TIMEOUT.sendBytes ↔ race = .timeout) ∧
      (race = .timeout →
        (rendezvous t k race).extBytes
          = strBytes "HTTP/1.1 504 Gateway Timeout\r\ncontent-length: 0\r\n\r\n" ∧
        (rendezvous t k race).extShutdown = true) ∧
      (rendezvous t k race).table k = false ∧
      rendezvousTimeoutSecs = 15 := by
  intro t k race
  have hbytes : GATEWAY_TIMEOUT.sendBytes
      = strBytes "HTTP/1.1 504 Gateway Timeout\r\ncontent-length: 0\r\n\r\n" := by decide
  have hne : GATEWAY_TIMEOUT.sendBytes ≠ [] := by decide
  cases race with
  | response =>
    have heval : rendezvous t k .response
        = { spliced := true, extBytes := [], extShutdown := false
            table := fun x => if x = k then false else connAdd t k x } := by
      simp [rendezvous, connAdd, connRemove]
    rw [heval]
    have hA : (true = true) ↔ (RaceOutcome.response = RaceOutcome.response) :=
      iff_of_true rfl rfl
    have hB : (([] : List Nat) = GATEWAY_TIMEOUT.sendBytes)
        ↔ (RaceOutcome.response = RaceOutcome.timeout) := by
      constructor
      · intro h; exact absurd h.symm hne
      · intro h; cases h
    refine ⟨hA, hB, ?_, ?_, rfl⟩
    · intro h; cases h
    · simp
  | timeout =>
    have heval : rendezvous t k .timeout
        = { spliced := false, extBytes := GATEWAY_TIMEOUT.sendBytes, extShutdown := true
            table := fun x => if x = k then false else connAdd t k x } := by
      simp [rendezvous, connAdd, connRemove]
    rw [heval]
    have hA : (false = true) ↔ (RaceOutcome.timeout = RaceOutcome.response) := by
      constructor
      · intro h; cases h
      · intro h; cases h
    exact ⟨hA, iff_of_true rfl rfl, fun _ => ⟨hbytes, rfl⟩, by simp, rfl⟩

theorem rendezvous_exactly_one_witness :
    (rendezvous (fun _ => false) [0] .timeout).extBytes
      = strBytes "HTTP/1.1 504 Gateway Timeout\r\ncontent-length: 0\r\n\r\n" ∧
    (rendezvous (fun _ => false) [0] .timeout).table [0] = false :=
  ⟨((rendezvous_exactly_one (fun _ => false) [0] .timeout).2.2.1 rfl).1,
   (rendezvous_exactly_one (fun _ => false) [0] .timeout).2.2.2.1⟩

/-- C9: `Protocol::send` either trips its length assertion, or writes
exactly the true big-endian `u16` length followed by the payload — a
frame it does write is never prefixed by a truncated or wrapped length
field. -/
theorem send_length_guard :
    ∀ p : Protocol,
      (∀ out, Protocol.send p = some out →
        serializedSize p + 2 < 65535 ∧
        out = u16be (serializedSize p) ++ encodeProtocol p) ∧
      (Protocol.send p = none ↔ ¬ serializedSize p + 2 < 65535) := by
  intro p
  by_cases h : serializedSize p + 2 < 65535
  · constructor
    · intro out hout
      refine ⟨h, ?_⟩
      have : Protocol.send p = some (u16be (serializedSize p % 65536) ++ encodeProtocol p) := by
        simp [Protocol.send, h]
      rw [this] at hout
      have hmod : serializedSize p % 65536 = serializedSize p := Nat.mod_eq_of_lt (by omega)
      rw [hmod] at hout
      exact (Option.some_inj.mp hout).symm
    · simp [Protocol.send, h]
  · constructor
    · intro out hout
      simp [Protocol.send, h] at hout
    · simp [Protocol.send, h]

theorem send_length_guard_witness :
    serializedSize .ping + 2 < 65535 ∧
    [0, 4, 5, 0, 0, 0] = u16be (serializedSize .ping) ++ encodeProtocol .ping :=
  (send_length_guard .ping).1 [0, 4, 5, 0, 0, 0] rfl

/-- C10: a `Request` frame whose domain is missing from the Client's
`--forward` map makes the main loop panic on the `unwrap`, aborting the
control link; a configured domain always yields a spawned forward
task towards its destination. -/
theorem client_request_dispatch :
    ∀ (forward : String → Option String) (domain : String),
      (forward domain = none → clientHandleRequest forward domain = .unwrapPanicked) ∧
      (∀ dst, forward domain = some dst →
        clientHandleRequest forward domain = .spawnedForward dst) := by
  intro forward domain
  constructor
  · intro h; simp [clientHandleRequest, h]
  · intro dst h; simp [clientHandleRequest, h]

theorem client_request_dispatch_witness :
    clientHandleRequest (fun _ => none) "a.foo.com" = .unwrapPanicked ∧
    clientHandleRequest (fun _ => some "127.0.0.1:80") "a.foo.com"
      = .spawnedForward "127.0.0.1:80" :=
  ⟨(client_request_dispatch (fun _ => none) "a.foo.com").1 rfl,
   (client_request_dispatch (fun _ => some "127.0.0.1:80") "a.foo.com").2 "127.0.0.1:80" rfl⟩

/-! ## Codec lemmas -/

theorem leBytes_length (k n : Nat) : (leBytes k n).length = k := by
  induction k generalizing n with
  | zero => rfl
  | succ k ih => simp [leBytes, ih]

theorem leVal_leBytes (k n : Nat) : leVal (leBytes k n) = n % 256 ^ k := by
  induction k generalizing n with
  | zero => simp [leBytes, leVal, Nat.mod_one]
  | succ k ih =>
    have h256 : (256 : Nat) ^ (k + 1) = 256 * 256 ^ k := by ring
    rw [leBytes, leVal, ih, h256, Nat.mod_mul]

theorem decodeFixed_enc (k n : Nat) (r : List Nat) :
    decodeFixed k (leBytes k n ++ r) = some (n % 256 ^ k, r) := by
  have hlen : (leBytes k n ++ r).length = k + r.length := by
    simp [leBytes_length]
  have htake : (leBytes k n ++ r).take k = leBytes k n := by
    have := List.take_left (leBytes k n) r
    rwa [leBytes_length] at this
  have hdrop : (leBytes k n ++ r).drop k = r := by
    have := List.drop_left (leBytes k n) r
    rwa [leBytes_length] at this
  rw [decodeFixed, if_pos (by omega), htake, hdrop, leVal_leBytes]

theorem decodeBytesF_enc (b r : List Nat) (h : b.length < 256 ^ 8) :
    decodeBytesF (encBytes b ++ r) = some (b, r) := by
  have hassoc : encBytes b ++ r = leBytes 8 b.length ++ (b ++ r) := by
    simp [encBytes]
  rw [decodeBytesF, hassoc]
  simp only [decodeFixed_enc, Nat.mod_eq_of_lt h]
  have hle : b.length ≤ (b ++ r).length := by simp
  rw [if_pos hle, List.take_left, List.drop_left]

theorem decodeBytesF_enc_nil (b : List Nat) (h : b.length < 256 ^ 8) :
    decodeBytesF (encBytes b) = some (b, []) := by
  have := decodeBytesF_enc b [] h
  rwa [List.append_nil] at this

theorem decodeStrings_enc (ds : List (List Nat)) (r : List Nat)
    (h : ∀ d ∈ ds, d.length < 256 ^ 8) :
    decodeStrings ds.length ((ds.map encBytes).flatten ++ r) = some (ds, r) := by
  induction ds with
  | nil => simp [decodeStrings]
  | cons d tl ih =>
    have hflat : ((d :: tl).map encBytes).flatten ++ r
        = encBytes d ++ ((tl.map encBytes).flatten ++ r) := by
      simp [List.map_cons, List.flatten_cons]
    rw [List.length_cons, decodeStrings, hflat]
    simp only [decodeBytesF_enc d _ (h d (List.mem_cons_self d tl)),
      ih fun x hx => h x (List.mem_cons_of_mem _ hx)]

theorem decodeStrings_enc_nil (ds : List (List Nat))
    (h : ∀ d ∈ ds, d.length < 256 ^ 8) :
    decodeStrings ds.length ((ds.map encBytes).flatten) = some (ds, []) := by
  have := decodeStrings_enc ds [] h
  rwa [List.append_nil] at this

theorem encBytes_length (b : List Nat) : (encBytes b).length = 8 + b.length := by
  simp [encBytes, leBytes_length]

theorem len_le_flatten (ds : List (List Nat)) (d : List Nat) (hd : d ∈ ds) :
    d.length ≤ ((ds.map encBytes).flatten).length := by
  induction ds with
  | nil => cases hd
  | cons a tl ih =>
    rw [List.map_cons, List.flatten_cons, List.length_append]
    rcases List.mem_cons.mp hd with h1 | h2
    · subst h1; rw [encBytes_length]; omega
    · have := ih h2; omega

theorem count_le_flatten (ds : List (List Nat)) :
    8 * ds.length ≤ ((ds.map encBytes).flatten).length := by
  induction ds with
  | nil => simp
  | cons a tl ih =>
    rw [List.map_cons, List.flatten_cons, List.length_append, List.length_cons,
      encBytes_length]
    omega

/-- Decoding inverts encoding for every frame whose encoding obeys the
wire-size bound enforced by `Protocol::send`. -/
theorem decode_encode (p : Protocol) (h : serializedSize p + 2 < 65535) :
    decodeProtocol (encodeProtocol p) = some (p, []) := by
  have h8 : (256 : Nat) ^ 8 = 18446744073709551616 := by norm_num
  cases p with
  | register ds =>
    have hsz : serializedSize (.register ds)
        = 12 + ((ds.map encBytes).flatten).length := by
      rw [serializedSize, encodeProtocol, List.length_append, List.length_append,
        leBytes_length, leBytes_length]
    have hdslen : ds.length < 256 ^ 8 := by
      have h1 := count_le_flatten ds
      rw [hsz] at h
      omega
    have hdbound : ∀ d ∈ ds, d.length < 256 ^ 8 := by
      intro d hd
      have h1 := len_le_flatten ds d hd
      rw [hsz] at h
      omega
    have e1 : encodeProtocol (.register ds)
        = leBytes 4 0 ++ (leBytes 8 ds.length ++ (ds.map encBytes).flatten) := by
      rw [encodeProtocol, List.append_assoc]
    rw [decodeProtocol, e1, decodeFixed_enc]
    norm_num
    rw [decodeFixed_enc, Nat.mod_eq_of_lt hdslen]
    simp only [decodeStrings_enc_nil ds hdbound]
  | ok =>
    have e1 : encodeProtocol .ok = leBytes 4 1 ++ [] := (List.append_nil _).symm
    rw [decodeProtocol, e1, decodeFixed_enc]
    norm_num
  | error =>
    have e1 : encodeProtocol .error = leBytes 4 2 ++ [] := (List.append_nil _).symm
    rw [decodeProtocol, e1, decodeFixed_enc]
    norm_num
  | request r =>
    have hsz : serializedSize (.request r) = 20 + r.key.length + r.domain.length := by
      rw [serializedSize, encodeProtocol, List.length_append, List.length_append,
        leBytes_length, encBytes_length, encBytes_length]
      omega
    have hkey : r.key.length < 256 ^ 8 := by rw [hsz] at h; omega
    have hdom : r.domain.length < 256 ^ 8 := by rw [hsz] at h; omega
    have e1 : encodeProtocol (.request r)
        = leBytes 4 3 ++ (encBytes r.key ++ encBytes r.domain) := by
      rw [encodeProtocol, List.append_assoc]
    rw [decodeProtocol, e1, decodeFixed_enc]
    norm_num
    rw [decodeBytesF_enc _ _ hkey]
    simp only [decodeBytesF_enc_nil _ hdom]
  | response k =>
    have hsz : serializedSize (.response k) = 12 + k.length := by
      rw [serializedSize, encodeProtocol, List.length_append,
        leBytes_length, encBytes_length]
      omega
    have hkey : k.length < 256 ^ 8 := by rw [hsz] at h; omega
    rw [decodeProtocol, encodeProtocol, decodeFixed_enc]
    norm_num
    rw [decodeBytesF_enc_nil _ hkey]
  | ping =>
    have e1 : encodeProtocol .ping = leBytes 4 5 ++ [] := (List.append_nil _).symm
    rw [decodeProtocol, e1, decodeFixed_enc]
    norm_num
  | pong =>
    have e1 : encodeProtocol .pong = leBytes 4 6 ++ [] := (List.append_nil _).symm
    rw [decodeProtocol, e1, decodeFixed_enc]
    norm_num

/-! ## Receiver lemmas -/

theorem recvPayload_full (f need : Nat) (rest : List Nat) (hf : 1 ≤ f)
    (hn : need ≤ rest.length) :
    recvLoopF f (.readPayload need []) rest
      = match deserializeProtocol (rest.take need) with
        | some p => .frame p
        | none => .decodeError := by
  obtain ⟨f0, rfl⟩ : ∃ f0, f = f0 + 1 := ⟨f - 1, by omega⟩
  have hmin : min (need - ([] : List Nat).length) rest.length = need := by
    simp; omega
  have hlen : (([] : List Nat) ++ rest.take (min (need - ([] : List Nat).length) rest.length)).length
      = need := by
    rw [hmin]; simp [hn]
  simp only [recvLoopF, hmin, List.nil_append, if_pos (by rw [List.length_take]; omega : (rest.take need).length = need)]

theorem recvPayload_short (f need : Nat) (acc rest : List Nat)
    (h : acc.length + rest.length < need) (hf : 2 ≤ f) :
    recvLoopF f (.readPayload need acc) rest = .eofError := by
  obtain ⟨f1, rfl⟩ : ∃ f1, f = f1 + 1 + 1 := ⟨f - 2, by omega⟩
  cases rest with
  | nil =>
    have hmin : min (need - acc.length) ([] : List Nat).length = 0 := by
      simp
    have hne : ¬ (acc ++ ([] : List Nat).take 0).length = need := by
      simp at h ⊢; omega
    simp only [recvLoopF, hmin, if_neg hne]
    rw [if_pos trivial]
  | cons c tl =>
    have hlen : (c :: tl).length = tl.length + 1 := List.length_cons c tl
    have hmin : min (need - acc.length) (c :: tl).length = tl.length + 1 := by
      rw [hlen]; simp at h; omega
    have htake : (c :: tl).take (tl.length + 1) = c :: tl := by
      rw [← hlen, List.take_length]
    have hdrop : (c :: tl).drop (tl.length + 1) = [] := by
      rw [← hlen, List.drop_length]
    have hne1 : ¬ (acc ++ c :: tl).length = need := by
      simp at h ⊢; omega
    have hne0 : ¬ tl.length + 1 = 0 := by omega
    have hmin2 : min (need - (acc ++ c :: tl).length) ([] : List Nat).length = 0 := by
      simp
    have hne2 : ¬ ((acc ++ c :: tl) ++ ([] : List Nat).take 0).length = need := by
      simp at h ⊢; omega
    simp only [recvLoopF, hmin, htake, hdrop, if_neg hne1, if_neg hne0, hmin2,
      if_neg hne2]
    rw [if_pos trivial]

theorem recv_cons2 (a b : Nat) (rest : List Nat) :
    Receiver.recv (a :: b :: rest)
      = recvLoopF (rest.length + 3) (.readPayload (u16beVal a b) []) rest := by
  have hfuel : (a :: b :: rest).length + 2 = rest.length + 3 + 1 := by
    simp
  rw [Receiver.recv, hfuel]
  have hmin : min (2 - ([] : List Nat).length) (a :: b :: rest).length = 2 := by
    simp
  have htake : (a :: b :: rest).take 2 = [a, b] := rfl
  have hdrop : (a :: b :: rest).drop 2 = rest := rfl
  have hlen2 : ([a, b] : List Nat).length = 2 := rfl
  simp only [recvLoopF, hmin, htake, hdrop, hlen2, List.nil_append,
    List.getD_cons_zero, List.getD_cons_succ, if_true]

/-! ## Claim theorems for the codec -/

/-- C6: any frame actually written by `Protocol::send` is read back by
a fresh `Receiver::recv` as exactly the same frame. -/
theorem send_recv_roundtrip :
    ∀ (p : Protocol) (out : List Nat),
      Protocol.send p = some out → Receiver.recv out = .frame p := by
  intro p out hsend
  by_cases h : serializedSize p + 2 < 65535
  · have hout : out = u16be (serializedSize p % 65536) ++ encodeProtocol p := by
      have : Protocol.send p = some (u16be (serializedSize p % 65536) ++ encodeProtocol p) := by
        simp [Protocol.send, h]
      rw [this] at hsend
      exact (Option.some_inj.mp hsend).symm
    set len := serializedSize p with hlen
    have hmod : len % 65536 = len := Nat.mod_eq_of_lt (by omega)
    have hout2 : out = (len / 256 % 256) :: (len % 256) :: encodeProtocol p := by
      rw [hout, hmod]; rfl
    rw [hout2, recv_cons2]
    have hval : u16beVal (len / 256 % 256) (len % 256) = len := by
      rw [u16beVal]; omega
    rw [hval]
    have hplen : len ≤ (encodeProtocol p).length := le_of_eq hlen
    rw [recvPayload_full _ _ _ (by omega) hplen]
    have htake : (encodeProtocol p).take len = encodeProtocol p := by
      rw [hlen, serializedSize, List.take_length]
    rw [htake]
    have hdec : deserializeProtocol (encodeProtocol p) = some p := by
      rw [deserializeProtocol, decode_encode p h]
    rw [hdec]
  · have : Protocol.send p = none := by simp [Protocol.send, h]
    rw [this] at hsend
    cases hsend

theorem send_recv_roundtrip_witness :
    Receiver.recv [0, 4, 5, 0, 0, 0] = .frame .ping :=
  send_recv_roundtrip .ping [0, 4, 5, 0, 0, 0] rfl

/-- C7: a fresh `Receiver::recv` reports end-of-stream exactly when the
source is exhausted at a frame boundary with no byte of the next length
prefix read; a source ending inside the length prefix or inside the
payload yields `UnexpectedEof`. -/
theorem recv_eof_boundary :
    ∀ bs : List Nat,
      (Receiver.recv bs = .closed ↔ bs = []) ∧
      (bs.length = 1 → Receiver.recv bs = .eofError) ∧
      (∀ a b rest, bs = a :: b :: rest → rest.length < u16beVal a b →
        Receiver.recv bs = .eofError) := by
  intro bs
  have hone : ∀ a : Nat, Receiver.recv [a] = .eofError := by
    intro a
    rw [Receiver.recv]
    simp [recvLoopF]
  refine ⟨?_, ?_, ?_⟩
  · constructor
    · intro hcl
      match bs with
      | [] => rfl
      | [a] => rw [hone a] at hcl; cases hcl
      | a :: b :: rest =>
        rw [recv_cons2] at hcl
        by_cases hl : u16beVal a b ≤ rest.length
        · rw [recvPayload_full _ _ _ (by omega) hl] at hcl
          cases hdes : deserializeProtocol (rest.take (u16beVal a b)) with
          | some p => rw [hdes] at hcl; cases hcl
          | none => rw [hdes] at hcl; cases hcl
        · rw [recvPayload_short _ _ _ _ (by simp; omega) (by omega)] at hcl
          cases hcl
    · intro hbs; subst hbs; rfl
  · intro h1
    match bs with
    | [a] => exact hone a
  · intro a b rest hbs hshort
    subst hbs
    rw [recv_cons2]
    exact recvPayload_short _ _ _ _ (by simp; omega) (by omega)

theorem recv_eof_boundary_witness :
    Receiver.recv [] = .closed ∧
    Receiver.recv [7] = .eofError ∧
    Receiver.recv [0, 3, 1] = .eofError :=
  ⟨(recv_eof_boundary []).1.mpr rfl,
   (recv_eof_boundary [7]).2.1 rfl,
   (recv_eof_boundary [0, 3, 1]).2.2 0 3 [1] rfl (by decide)⟩

/-! ## Sniffer lemmas: find_r -/

theorem findRAux_bounds (l : List Nat) : ∀ (i stop e : Nat),
    findRAux l i stop = some e → i ≤ e ∧ e < stop := by
  induction l with
  | nil => intro i stop e h; cases h
  | cons c rest ih =>
    intro i stop e h
    rw [findRAux] at h
    by_cases hi : i < stop
    · rw [if_pos hi] at h
      by_cases hc : c = 13
      · rw [if_pos hc] at h
        cases h
        exact ⟨le_refl _, hi⟩
      · rw [if_neg hc] at h
        have := ih (i + 1) stop e h
        omega
    · rw [if_neg hi] at h; cases h

theorem find_r_bounds (s : List Nat) (a b e : Nat) (h : find_r s a b = some e) :
    a ≤ e ∧ e < b := findRAux_bounds _ _ _ _ h

theorem findRAux_mono (l : List Nat) : ∀ (i stop stop' e : Nat), stop ≤ stop' →
    findRAux l i stop = some e → findRAux l i stop' = some e := by
  induction l with
  | nil => intro i stop stop' e _ h; cases h
  | cons c rest ih =>
    intro i stop stop' e hs h
    rw [findRAux] at h ⊢
    by_cases hi : i < stop
    · rw [if_pos hi] at h
      rw [if_pos (by omega)]
      by_cases hc : c = 13
      · rw [if_pos hc] at h ⊢; exact h
      · rw [if_neg hc] at h ⊢; exact ih (i + 1) stop stop' e hs h
    · rw [if_neg hi] at h; cases h

theorem find_r_mono (s : List Nat) (a b b' e : Nat) (hb : b ≤ b')
    (h : find_r s a b = some e) : find_r s a b' = some e :=
  findRAux_mono _ _ _ _ _ hb h

theorem find_r_none_of_le (s : List Nat) (a b : Nat) (hb : b ≤ a) :
    find_r s a b = none := by
  rw [find_r]
  cases hd : s.drop a with
  | nil => rfl
  | cons c rest => rw [findRAux, if_neg (by omega)]

theorem findRAux_none (l : List Nat) : ∀ (i stop : Nat),
    (∀ c ∈ l.take (stop - i), c ≠ 13) → findRAux l i stop = none := by
  induction l with
  | nil => intro i stop _; rfl
  | cons c rest ih =>
    intro i stop h
    rw [findRAux]
    by_cases hi : i < stop
    · rw [if_pos hi]
      have hc : c ≠ 13 := by
        apply h
        have : stop - i = (stop - i - 1) + 1 := by omega
        rw [this, List.take_succ_cons]
        exact List.mem_cons_self _ _
      rw [if_neg hc]
      apply ih
      intro x hx
      apply h
      have : stop - i = (stop - (i + 1)) + 1 := by omega
      rw [this, List.take_succ_cons]
      exact List.mem_cons_of_mem _ hx
    · rw [if_neg hi]

theorem findRAux_skip (l1 : List Nat) : ∀ (l2 : List Nat) (i stop : Nat),
    (∀ c ∈ l1, c ≠ 13) → i + l1.length ≤ stop →
    findRAux (l1 ++ l2) i stop = findRAux l2 (i + l1.length) stop := by
  induction l1 with
  | nil => intro l2 i stop _ _; simp
  | cons c rest ih =>
    intro l2 i stop h hle
    rw [List.cons_append, findRAux]
    have hi : i < stop := by simp at hle; omega
    rw [if_pos hi, if_neg (h c (List.mem_cons_self _ _))]
    have := ih l2 (i + 1) stop (fun x hx => h x (List.mem_cons_of_mem _ hx))
      (by simp at hle ⊢; omega)
    rw [this]
    congr 1
    simp
    omega

/-! ## Sniffer lemmas: the header-line scanner -/

theorem scanHF_zero (s : List Nat) (len pos : Nat) :
    scanHeaderF 0 s len pos = .inl (.parseHeader pos) := rfl

theorem scanHF_succ (f : Nat) (s : List Nat) (len pos : Nat) :
    scanHeaderF (f + 1) s len pos
      = match find_r s pos len with
        | some e =>
          match extract_domain (slice s pos e) with
          | some v => .inr v
          | none => scanHeaderF f s len (e + 2)
        | none => .inl (.parseHeader pos) := rfl

theorem scanHF_fuel (s : List Nat) (len : Nat) :
    ∀ f f' pos, len ≤ pos + f → len ≤ pos + f' →
      scanHeaderF f s len pos = scanHeaderF f' s len pos := by
  intro f
  induction f with
  | zero =>
    intro f' pos h h'
    have hnone : find_r s pos len = none := find_r_none_of_le s pos len (by omega)
    cases f' with
    | zero => rfl
    | succ f' => rw [scanHF_zero, scanHF_succ, hnone]
  | succ f ih =>
    intro f' pos h h'
    cases f' with
    | zero =>
      have hnone : find_r s pos len = none := find_r_none_of_le s pos len (by omega)
      rw [scanHF_zero, scanHF_succ, hnone]
    | succ f' =>
      rw [scanHF_succ, scanHF_succ]
      cases hf : find_r s pos len with
      | none => simp only [hf]
      | some e =>
        have hb := find_r_bounds s pos len e hf
        cases hx : extract_domain (slice s pos e) with
        | some v => simp only [hf, hx]
        | none =>
          simp only [hf, hx]
          exact ih f' (e + 2) (by omega) (by omega)

theorem scanHF_inl_shape (s : List Nat) (len : Nat) :
    ∀ f pos st, scanHeaderF f s len pos = .inl st → ∃ q, st = .parseHeader q := by
  intro f
  induction f with
  | zero =>
    intro pos st h
    rw [scanHF_zero] at h
    exact ⟨pos, by simpa using h.symm⟩
  | succ f ih =>
    intro pos st h
    rw [scanHF_succ] at h
    cases hf : find_r s pos len with
    | none =>
      simp only [hf] at h
      exact ⟨pos, by simpa using h.symm⟩
    | some e =>
      simp only [hf] at h
      cases hx : extract_domain (slice s pos e) with
      | some v => simp only [hx] at h; simp at h
      | none => simp only [hx] at h; exact ih (e + 2) st h

theorem scanHF_resume (s : List Nat) (len : Nat) :
    ∀ f pos q, len ≤ pos + f →
      scanHeaderF f s len pos = .inl (.parseHeader q) →
      ∀ len', len ≤ len' →
        scanHeaderF len' s len' pos = scanHeaderF len' s len' q := by
  intro f
  induction f with
  | zero =>
    intro pos q h hs len' hl
    rw [scanHF_zero] at hs
    obtain rfl : pos = q := by simpa using hs
    rfl
  | succ f ih =>
    intro pos q h hs len' hl
    rw [scanHF_succ] at hs
    cases hf : find_r s pos len with
    | none =>
      simp only [hf] at hs
      obtain rfl : pos = q := by simpa using hs
      rfl
    | some e =>
      simp only [hf] at hs
      have hb := find_r_bounds s pos len e hf
      cases hx : extract_domain (slice s pos e) with
      | some v => simp only [hx] at hs; simp at hs
      | none =>
        simp only [hx] at hs
        have hrec := ih (e + 2) q (by omega) hs len' hl
        obtain ⟨m, rfl⟩ : ∃ m, len' = m + 1 := ⟨len' - 1, by omega⟩
        have hf' : find_r s pos (m + 1) = some e := find_r_mono s pos len (m + 1) e hl hf
        rw [scanHF_succ]
        simp only [hf', hx]
        rw [scanHF_fuel s (m + 1) m (m + 1) (e + 2) (by omega) (by omega)]
        exact hrec

theorem scanHF_mono_succ (s : List Nat) (len : Nat) :
    ∀ f pos v, len ≤ pos + f →
      scanHeaderF f s len pos = .inr v →
      ∀ len', len ≤ len' → scanHeaderF len' s len' pos = .inr v := by
  intro f
  induction f with
  | zero => intro pos v h hs len' hl; rw [scanHF_zero] at hs; cases hs
  | succ f ih =>
    intro pos v h hs len' hl
    rw [scanHF_succ] at hs
    cases hf : find_r s pos len with
    | none => simp only [hf] at hs; simp at hs
    | some e =>
      simp only [hf] at hs
      have hb := find_r_bounds s pos len e hf
      obtain ⟨m, rfl⟩ : ∃ m, len' = m + 1 := ⟨len' - 1, by omega⟩
      have hf' : find_r s pos (m + 1) = some e := find_r_mono s pos len (m + 1) e hl hf
      cases hx : extract_domain (slice s pos e) with
      | some w =>
        simp only [hx] at hs
        obtain rfl : w = v := by simpa using hs
        rw [scanHF_succ]
        simp only [hf', hx]
      | none =>
        simp only [hx] at hs
        have hrec := ih (e + 2) v (by omega) hs (m + 1) hl
        rw [scanHF_succ]
        simp only [hf', hx]
        rw [scanHF_fuel s (m + 1) m (m + 1) (e + 2) (by omega) (by omega)]
        exact hrec

/-! ## Sniffer lemmas: scanStep -/

theorem scanStep_start (s : List Nat) (len : Nat) :
    scanStep s len .start
      = match find_r s 0 len with
        | some p => scanHeaderF len s len (p + 2)
        | none => .inl .start := rfl

theorem scanStep_ph (s : List Nat) (len pos : Nat) :
    scanStep s len (.parseHeader pos) = scanHeaderF len s len pos := rfl

theorem scanStep_resume (s : List Nat) (len len' : Nat) (st st' : SnifferState)
    (hl : len ≤ len') (h : scanStep s len st = .inl st') :
    scanStep s len' st = scanStep s len' st' := by
  cases st with
  | start =>
    rw [scanStep_start] at h
    cases hf : find_r s 0 len with
    | none =>
      simp only [hf] at h
      obtain rfl : SnifferState.start = st' := by simpa using h
      rfl
    | some p =>
      simp only [hf] at h
      obtain ⟨q, rfl⟩ := scanHF_inl_shape s len len (p + 2) st' h
      have hb := find_r_bounds s 0 len p hf
      have hf' : find_r s 0 len' = some p := find_r_mono s 0 len len' p hl hf
      rw [scanStep_start, hf']
      rw [scanStep_ph]
      exact scanHF_resume s len len (p + 2) q (by omega) h len' hl
  | parseHeader pos =>
    rw [scanStep_ph] at h
    obtain ⟨q, rfl⟩ := scanHF_inl_shape s len len pos _ h
    rw [scanStep_ph, scanStep_ph]
    exact scanHF_resume s len len pos q (by omega) h len' hl

theorem scanStep_mono_succ (s : List Nat) (len len' : Nat) (st : SnifferState)
    (v : List Nat) (hl : len ≤ len') (h : scanStep s len st = .inr v) :
    scanStep s len' st = .inr v := by
  cases st with
  | start =>
    rw [scanStep_start] at h
    cases hf : find_r s 0 len with
    | none => simp only [hf] at h; simp at h
    | some p =>
      simp only [hf] at h
      have hb := find_r_bounds s 0 len p hf
      have hf' : find_r s 0 len' = some p := find_r_mono s 0 len len' p hl hf
      rw [scanStep_start, hf']
      exact scanHF_mono_succ s len len (p + 2) v (by omega) h len' hl
  | parseHeader pos =>
    rw [scanStep_ph] at h
    rw [scanStep_ph]
    exact scanHF_mono_succ s len len pos v (by omega) h len' hl

/-! ## Sniffer lemmas: the read loop -/

theorem parseLoopF_zero (input : List Nat) (read cap : Nat) (st : SnifferState) :
    parseLoopF 0 input read cap st = .eofError := rfl

theorem parseLoopF_succ (f : Nat) (input : List Nat) (read cap : Nat)
    (st : SnifferState) :
    parseLoopF (f + 1) input read cap st
      = if min (cap - read) (input.length - read) = 0 then .eofError
        else
          match scanStep input (read + min (cap - read) (input.length - read)) st with
          | .inr v =>
            .done (trimBytes v)
              (input.take (read + min (cap - read) (input.length - read)))
          | .inl st2 =>
            if read + min (cap - read) (input.length - read) = cap then
              if read + min (cap - read) (input.length - read) < 4096 then
                parseLoopF f input
                  (read + min (cap - read) (input.length - read)) (reserveCap cap) st2
              else .headerTooLarge
            else
              parseLoopF f input
                (read + min (cap - read) (input.length - read)) cap st2 := rfl

/-- Characterization of every run of the read loop that starts in a
reachable configuration: it ends in `UnexpectedEof`, ends in success
with the scanner accepting the prefix read so far, or ends in
`HeaderTooLarge` with the scanner rejecting the first 4096 bytes. -/
theorem parseLoop_cases :
    ∀ (f : Nat) (input : List Nat) (read cap : Nat) (st : SnifferState),
      input.length ≤ read + f →
      read < cap → read ≤ input.length →
      (cap = 1024 ∨ cap = 2048 ∨ cap = 4096) →
      (∀ len, read ≤ len → scanStep input len .start = scanStep input len st) →
      parseLoopF f input read cap st = .eofError ∨
      (∃ r2 v, read < r2 ∧ r2 ≤ input.length ∧ r2 ≤ 4096 ∧
        scanStep input r2 .start = .inr v ∧
        parseLoopF f input read cap st = .done (trimBytes v) (input.take r2)) ∨
      (4096 ≤ input.length ∧ (∃ st2, scanStep input 4096 .start = .inl st2) ∧
        parseLoopF f input read cap st = .headerTooLarge) := by
  intro f
  induction f with
  | zero =>
    intro input read cap st h1 h2 h3 h4 h5
    left; rfl
  | succ f ih =>
    intro input read cap st h1 h2 h3 h4 h5
    rw [parseLoopF_succ]
    by_cases hn : min (cap - read) (input.length - read) = 0
    · left; rw [if_pos hn]
    · rw [if_neg hn]
      have hmin1 : 1 ≤ min (cap - read) (input.length - read) := by omega
      have hminle : min (cap - read) (input.length - read) ≤ input.length - read := by
        omega
      have hmincap : min (cap - read) (input.length - read) ≤ cap - read := by omega
      cases hscan :
          scanStep input (read + min (cap - read) (input.length - read)) st with
      | inr v =>
        right; left
        refine ⟨read + min (cap - read) (input.length - read), v,
          by omega, by omega, ?_, ?_, by simp only [hscan]⟩
        · rcases h4 with h | h | h <;> omega
        · rw [h5 _ (by omega)]; exact hscan
      | inl st2 =>
        have h5' : ∀ len,
            read + min (cap - read) (input.length - read) ≤ len →
            scanStep input len .start = scanStep input len st2 := by
          intro len hlen
          rw [h5 len (by omega)]
          exact scanStep_resume input _ len st st2 hlen hscan
        by_cases hcap : read + min (cap - read) (input.length - read) = cap
        · by_cases h4096 : read + min (cap - read) (input.length - read) < 4096
          · have hcapOk : reserveCap cap = 1024 ∨ reserveCap cap = 2048 ∨
                reserveCap cap = 4096 := by
              rcases h4 with rfl | rfl | rfl
              · right; left; rfl
              · right; right; rfl
              · omega
            have hres := ih input (read + min (cap - read) (input.length - read))
              (reserveCap cap) st2 (by omega)
              (by simp only [reserveCap]; omega) (by omega) hcapOk h5'
            simp only [hscan, if_pos hcap, if_pos h4096]
            rcases hres with he | ⟨r2, v, hr1, hr2, hr3, hr4, hr5⟩ | ht
            · left; exact he
            · right; left; exact ⟨r2, v, by omega, hr2, hr3, hr4, hr5⟩
            · right; right; exact ht
          · right; right
            have hcap4096 : read + min (cap - read) (input.length - read) = 4096 := by
              rcases h4 with h | h | h <;> omega
            refine ⟨by omega, ⟨st2, ?_⟩, by simp only [hscan, if_pos hcap, if_neg h4096]⟩
            rw [h5 4096 (by omega), ← hcap4096]
            exact hscan
        · have hres := ih input (read + min (cap - read) (input.length - read))
            cap st2 (by omega) (by omega) (by omega) h4 h5'
          simp only [hscan, if_neg hcap]
          rcases hres with he | ⟨r2, v, hr1, hr2, hr3, hr4, hr5⟩ | ht
          · left; exact he
          · right; left; exact ⟨r2, v, by omega, hr2, hr3, hr4, hr5⟩
          · right; right; exact ht

/-- Soundness of a successful sniff: the buffer is the prefix of the
input read so far and the domain is the trimmed value accepted by the
line scanner on that prefix. -/
theorem parse_done_char (input d b : List Nat)
    (h : parse_domain input = .done d b) :
    ∃ r2 v, 0 < r2 ∧ r2 ≤ input.length ∧ r2 ≤ 4096 ∧ b = input.take r2 ∧
      scanStep input r2 .start = .inr v ∧ d = trimBytes v := by
  have hc := parseLoop_cases input.length input 0 1024 .start (by omega) (by omega)
    (by omega) (Or.inl rfl) (fun len _ => rfl)
  rw [parse_domain] at h
  rcases hc with he | ⟨r2, v, hr1, hr2, hr3, hr4, hr5⟩ | ⟨_, _, ht⟩
  · rw [he] at h; cases h
  · rw [hr5] at h
    injection h with hd hb
    exact ⟨r2, v, by omega, hr2, hr3, hb.symm, hr4, hd.symm⟩
  · rw [ht] at h; cases h

/-- Soundness of `HeaderTooLarge`: it occurs only once 4096 bytes have
been read and the scanner has rejected all of them. -/
theorem parse_tooLarge_char (input : List Nat)
    (h : parse_domain input = .headerTooLarge) :
    4096 ≤ input.length ∧ ∃ st2, scanStep input 4096 .start = .inl st2 := by
  have hc := parseLoop_cases input.length input 0 1024 .start (by omega) (by omega)
    (by omega) (Or.inl rfl) (fun len _ => rfl)
  rw [parse_domain] at h
  rcases hc with he | ⟨r2, v, hr1, hr2, hr3, hr4, hr5⟩ | ⟨hl, hst, ht⟩
  · rw [he] at h; cases h
  · rw [hr5] at h; cases h
  · exact ⟨hl, hst⟩

/-- Completeness on long inputs: when at least 4096 bytes are
available and the scanner is still parked after 1024 and after 2048
bytes, the loop reads exactly 1024, 2048 and then 4096 bytes, and the
outcome is decided by the scan of the first 4096 bytes. -/
theorem parse_run_full (input : List Nat) (h4096 : 4096 ≤ input.length)
    (h1 : ∀ v, scanStep input 1024 .start ≠ .inr v)
    (h2 : ∀ v, scanStep input 2048 .start ≠ .inr v) :
    parse_domain input
      = match scanStep input 4096 .start with
        | .inr v => .done (trimBytes v) (input.take 4096)
        | .inl _ => .headerTooLarge := by
  obtain ⟨st1, hst1⟩ : ∃ st1, scanStep input 1024 .start = .inl st1 := by
    cases hs : scanStep input 1024 .start with
    | inl s => exact ⟨s, rfl⟩
    | inr v => exact absurd hs (h1 v)
  have hres1 : ∀ len, 1024 ≤ len →
      scanStep input len .start = scanStep input len st1 :=
    fun len hl => scanStep_resume input 1024 len .start st1 hl hst1
  obtain ⟨st2, hst2⟩ : ∃ st2, scanStep input 2048 st1 = .inl st2 := by
    cases hs : scanStep input 2048 st1 with
    | inl s => exact ⟨s, rfl⟩
    | inr v => exact absurd ((hres1 2048 (by omega)).trans hs) (h2 v)
  have hres2 : ∀ len, 2048 ≤ len →
      scanStep input len st1 = scanStep input len st2 :=
    fun len hl => scanStep_resume input 2048 len st1 st2 hl hst2
  obtain ⟨g, hg⟩ : ∃ g, input.length = g + 1 + 1 + 1 := ⟨input.length - 3, by omega⟩
  rw [parse_domain, hg, parseLoopF_succ]
  have hm1 : min (1024 - 0) (input.length - 0) = 1024 := by omega
  rw [hm1, if_neg (by omega : ¬ (1024 : Nat) = 0), Nat.zero_add]
  simp only [hst1]
  rw [if_pos trivial, if_pos (by norm_num : (1024 : Nat) < 4096)]
  have hcap1 : reserveCap 1024 = 2048 := rfl
  rw [hcap1, parseLoopF_succ]
  have hm2 : min (2048 - 1024) (input.length - 1024) = 1024 := by omega
  rw [hm2, if_neg (by omega : ¬ (1024 : Nat) = 0)]
  have hadd2 : (1024 : Nat) + 1024 = 2048 := by norm_num
  rw [hadd2]
  simp only [hst2]
  rw [if_pos trivial, if_pos (by norm_num : (2048 : Nat) < 4096)]
  have hcap2 : reserveCap 2048 = 4096 := rfl
  rw [hcap2, parseLoopF_succ]
  have hm3 : min (4096 - 2048) (input.length - 2048) = 2048 := by omega
  rw [hm3, if_neg (by omega : ¬ (2048 : Nat) = 0)]
  have hadd3 : (2048 : Nat) + 2048 = 4096 := by norm_num
  rw [hadd3]
  have hchain : scanStep input 4096 st2 = scanStep input 4096 .start :=
    ((hres1 4096 (by omega)).trans (hres2 4096 (by omega))).symm
  rw [hchain]
  cases hfin : scanStep input 4096 .start with
  | inr v => simp only [hfin]
  | inl st3 =>
    simp only [hfin]
    norm_num

/-! ## The 4 KiB boundary inputs -/

theorem strA_eq : strBytes "A\r\n" = [65, 13, 10] := rfl

theorem strHost_eq : strBytes "Host:" = [72, 111, 115, 116, 58] := rfl

theorem hostBoundary_length (pad : Nat) :
    (hostBoundaryInput pad).length = pad + 10 := by
  rw [hostBoundaryInput, strA_eq, strHost_eq]
  simp only [List.length_append, List.length_replicate, List.length_cons,
    List.length_nil]
  omega

theorem hostHead_no13 (pad : Nat) :
    ∀ c ∈ strBytes "Host:" ++ List.replicate pad 97, c ≠ 13 := by
  intro c hc
  rcases List.mem_append.mp hc with h1 | h2
  · rw [strHost_eq] at h1
    simp at h1
    rcases h1 with h | h | h | h | h <;> omega
  · have := List.eq_of_mem_replicate h2
    omega

theorem hostHead_len (pad : Nat) :
    (strBytes "Host:" ++ List.replicate pad 97).length = pad + 5 := by
  rw [strHost_eq]
  simp only [List.length_append, List.length_replicate, List.length_cons,
    List.length_nil]
  omega

theorem hostBoundary_drop3 (pad : Nat) :
    (hostBoundaryInput pad).drop 3
      = (strBytes "Host:" ++ List.replicate pad 97) ++ [13, 10] := by
  have h3 : ([65, 13, 10] : List Nat).length = 3 := rfl
  rw [hostBoundaryInput, strA_eq, ← h3, List.drop_left, ← List.append_assoc]

theorem hostBoundary_fr0 (pad len : Nat) (h : 2 ≤ len) :
    find_r (hostBoundaryInput pad) 0 len = some 1 := by
  rw [hostBoundaryInput, strA_eq, find_r, List.drop_zero]
  simp only [List.cons_append, List.nil_append]
  rw [findRAux, if_pos (by omega : 0 < len), if_neg (by omega : ¬ (65 : Nat) = 13),
    findRAux, if_pos (by omega : 1 < len), if_pos rfl]

theorem hostBoundary_fr3_none (pad len : Nat) (hle : len ≤ pad + 8) :
    find_r (hostBoundaryInput pad) 3 len = none := by
  rw [find_r, hostBoundary_drop3]
  apply findRAux_none
  intro c hc
  have htk : ((strBytes "Host:" ++ List.replicate pad 97) ++ [13, 10]).take (len - 3)
      = (strBytes "Host:" ++ List.replicate pad 97).take (len - 3) := by
    apply List.take_append_of_le_length
    rw [hostHead_len]
    omega
  rw [htk] at hc
  exact hostHead_no13 pad c (List.mem_of_mem_take hc)

theorem hostBoundary_fr3_some (pad len : Nat) (hlt : pad + 8 < len) :
    find_r (hostBoundaryInput pad) 3 len = some (pad + 8) := by
  rw [find_r, hostBoundary_drop3]
  rw [findRAux_skip (strBytes "Host:" ++ List.replicate pad 97) [13, 10] 3 len
    (hostHead_no13 pad) (by rw [hostHead_len]; omega)]
  rw [hostHead_len]
  have h38 : 3 + (pad + 5) = pad + 8 := by omega
  rw [h38, findRAux, if_pos (by omega : pad + 8 < len), if_pos rfl]

theorem hostBoundary_slice (pad : Nat) :
    slice (hostBoundaryInput pad) 3 (pad + 8)
      = strBytes "Host:" ++ List.replicate pad 97 := by
  rw [slice]
  have htake : (hostBoundaryInput pad).take (pad + 8)
      = [65, 13, 10] ++ (strBytes "Host:" ++ List.replicate pad 97) := by
    rw [hostBoundaryInput, strA_eq]
    have h1 : pad + 8 = ([65, 13, 10] : List Nat).length + (pad + 5) := by
      simp only [List.length_cons, List.length_nil]
      omega
    rw [h1, List.take_append]
    congr 1
    rw [strHost_eq]
    have h2 : pad + 5 = ([72, 111, 115, 116, 58] : List Nat).length + pad := by
      simp only [List.length_cons, List.length_nil]
      omega
    rw [h2, List.take_append]
    congr 1
    rw [List.take_append_of_le_length (by simp)]
    simp [List.take_replicate]
  rw [htake]
  have h3 : ([65, 13, 10] : List Nat).length = 3 := rfl
  rw [← h3, List.drop_left]

theorem extract_domain_eq (line : List Nat) :
    extract_domain line
      = match line.splitOn 58 with
        | name :: v :: _ => if eq_host name then some v else none
        | _ => none := rfl

theorem hostHead_split (pad : Nat) :
    (strBytes "Host:" ++ List.replicate pad 97).splitOn 58
      = [[72, 111, 115, 116], List.replicate pad 97] := by
  have e1 : strBytes "Host:" ++ List.replicate pad 97
      = [72, 111, 115, 116] ++ 58 :: List.replicate pad 97 := by
    rw [strHost_eq]
    rfl
  rw [e1]
  show ([72, 111, 115, 116] ++ 58 :: List.replicate pad 97).splitOnP (· == 58)
      = [[72, 111, 115, 116], List.replicate pad 97]
  rw [List.splitOnP_first _ _ (by decide) 58 (by decide)]
  rw [List.splitOnP_eq_single]
  intro x hx
  have := List.eq_of_mem_replicate hx
  subst this
  decide

theorem hostHead_extract (pad : Nat) :
    extract_domain (strBytes "Host:" ++ List.replicate pad 97)
      = some (List.replicate pad 97) := by
  rw [extract_domain_eq, hostHead_split]
  show (if eq_host [72, 111, 115, 116] then some (List.replicate pad 97) else none)
      = some (List.replicate pad 97)
  rw [if_pos (by decide : eq_host [72, 111, 115, 116] = true)]

theorem hostBoundary_scan_parked (pad len : Nat) (h2 : 3 ≤ len) (hle : len ≤ pad + 8) :
    scanStep (hostBoundaryInput pad) len .start = .inl (.parseHeader 3) := by
  rw [scanStep_start]
  simp only [hostBoundary_fr0 pad len (by omega)]
  obtain ⟨m, rfl⟩ : ∃ m, len = m + 1 := ⟨len - 1, by omega⟩
  rw [scanHF_succ]
  simp only [hostBoundary_fr3_none pad (m + 1) hle]

theorem hostBoundary_scan_ok :
    scanStep (hostBoundaryInput 4087) 4096 .start
      = .inr (List.replicate 4087 97) := by
  rw [scanStep_start]
  simp only [hostBoundary_fr0 4087 4096 (by norm_num)]
  rw [show (4096 : Nat) = 4095 + 1 from by norm_num, scanHF_succ]
  have hfr : find_r (hostBoundaryInput 4087) 3 (4095 + 1) = some 4095 := by
    have := hostBoundary_fr3_some 4087 (4095 + 1) (by norm_num)
    norm_num at this ⊢
    exact this
  simp only [hfr]
  have hsl : slice (hostBoundaryInput 4087) 3 4095
      = strBytes "Host:" ++ List.replicate 4087 97 := by
    have := hostBoundary_slice 4087
    norm_num at this ⊢
    exact this
  rw [hsl]
  simp only [hostHead_extract 4087]

theorem hostBoundary_ok_parse :
    parse_domain (hostBoundaryInput 4087)
      = .done (trimBytes (List.replicate 4087 97))
          ((hostBoundaryInput 4087).take 4096) := by
  have hlen : (hostBoundaryInput 4087).length = 4097 := by
    rw [hostBoundary_length]
  have h1 : ∀ v, scanStep (hostBoundaryInput 4087) 1024 .start ≠ .inr v := by
    intro v h
    rw [hostBoundary_scan_parked 4087 1024 (by norm_num) (by norm_num)] at h
    cases h
  have h2 : ∀ v, scanStep (hostBoundaryInput 4087) 2048 .start ≠ .inr v := by
    intro v h
    rw [hostBoundary_scan_parked 4087 2048 (by norm_num) (by norm_num)] at h
    cases h
  rw [parse_run_full (hostBoundaryInput 4087) (by omega) h1 h2]
  simp only [hostBoundary_scan_ok]

theorem hostBoundary_bad_parse :
    parse_domain (hostBoundaryInput 4088) = .headerTooLarge := by
  have hlen : (hostBoundaryInput 4088).length = 4098 := by
    rw [hostBoundary_length]
  have h1 : ∀ v, scanStep (hostBoundaryInput 4088) 1024 .start ≠ .inr v := by
    intro v h
    rw [hostBoundary_scan_parked 4088 1024 (by norm_num) (by norm_num)] at h
    cases h
  have h2 : ∀ v, scanStep (hostBoundaryInput 4088) 2048 .start ≠ .inr v := by
    intro v h
    rw [hostBoundary_scan_parked 4088 2048 (by norm_num) (by norm_num)] at h
    cases h
  rw [parse_run_full (hostBoundaryInput 4088) (by omega) h1 h2]
  simp only [hostBoundary_scan_parked 4088 4096 (by norm_num) (by norm_num)]

/-! ## Claim theorems for the sniffer -/

/-- C1: on every successful sniff, the back-channel receives the whole
sniffed buffer first and then the remaining external bytes, and since
the buffer is exactly the prefix of the external stream read so far,
the origin sees the external byte stream intact. -/
theorem sniffed_prefix_prepended :
    ∀ (input d b : List Nat), parse_domain input = .done d b →
      backChannelBytes input = some (b ++ input.drop b.length) ∧
      b = input.take b.length ∧
      b ++ input.drop b.length = input := by
  intro input d b h
  obtain ⟨r2, v, _, hrlen, _, hb, _, _⟩ := parse_done_char input d b h
  have hblen : b.length = r2 := by
    rw [hb, List.length_take]
    omega
  refine ⟨?_, ?_, ?_⟩
  · rw [backChannelBytes, h]
  · rw [hblen]
    exact hb
  · rw [hblen, hb]
    exact List.take_append_drop r2 input

theorem sniffed_prefix_prepended_witness :
    backChannelBytes (strBytes "A\r\nHost: x\r\n\r\n")
        = some (strBytes "A\r\nHost: x\r\n\r\n"
            ++ (strBytes "A\r\nHost: x\r\n\r\n").drop
                (strBytes "A\r\nHost: x\r\n\r\n").length) ∧
    strBytes "A\r\nHost: x\r\n\r\n"
        = (strBytes "A\r\nHost: x\r\n\r\n").take (strBytes "A\r\nHost: x\r\n\r\n").length ∧
    strBytes "A\r\nHost: x\r\n\r\n"
        ++ (strBytes "A\r\nHost: x\r\n\r\n").drop (strBytes "A\r\nHost: x\r\n\r\n").length
      = strBytes "A\r\nHost: x\r\n\r\n" :=
  sniffed_prefix_prepended (strBytes "A\r\nHost: x\r\n\r\n") (strBytes "x")
    (strBytes "A\r\nHost: x\r\n\r\n") rfl

/-- C2, counterexample: for the request `GET / HTTP/1.1\r\nHost:
a.foo.com:443\r\n\r\n` the sniffer returns `a.foo.com` — the value is
cut at the second colon, so the trailing `:443` is NOT included, contrary
to the claim. -/
theorem host_port_counterexample :
    parse_domain (strBytes "GET / HTTP/1.1\r\nHost: a.foo.com:443\r\n\r\n")
      = .done (strBytes "a.foo.com")
          (strBytes "GET / HTTP/1.1\r\nHost: a.foo.com:443\r\n\r\n") ∧
    strBytes "a.foo.com" ≠ strBytes "a.foo.com:443" :=
  ⟨rfl, by decide⟩

/-- C2 (amended): on every successful sniff the returned buffer is the
entire prefix of the input read so far, and the returned domain is the
trimmed value produced by the line scanner on that prefix — the value
of the first CRLF-delimited header line after the request line whose
name equals `host` case-insensitively, where the value is the segment
of the line strictly between its first colon and the following colon or
line end (a trailing `:port` is excluded). -/
theorem sniffer_returns_first_host_value :
    ∀ (input d b : List Nat), parse_domain input = .done d b →
      b = input.take b.length ∧ b.length ≤ input.length ∧
      ∃ v, scanStep input b.length .start = .inr v ∧ d = trimBytes v := by
  intro input d b h
  obtain ⟨r2, v, hr0, hrlen, hr4096, hb, hscan, hd⟩ := parse_done_char input d b h
  have hblen : b.length = r2 := by
    rw [hb, List.length_take]
    omega
  refine ⟨?_, ?_, v, ?_, hd⟩
  · rw [hblen]
    exact hb
  · rw [hblen]
    exact hrlen
  · rw [hblen]
    exact hscan

theorem sniffer_returns_first_host_value_witness :
    strBytes "A\r\nHost: x\r\n\r\n"
        = (strBytes "A\r\nHost: x\r\n\r\n").take (strBytes "A\r\nHost: x\r\n\r\n").length ∧
    (strBytes "A\r\nHost: x\r\n\r\n").length ≤ (strBytes "A\r\nHost: x\r\n\r\n").length ∧
    ∃ v, scanStep (strBytes "A\r\nHost: x\r\n\r\n")
          (strBytes "A\r\nHost: x\r\n\r\n").length .start = .inr v ∧
        strBytes "x" = trimBytes v :=
  sniffer_returns_first_host_value (strBytes "A\r\nHost: x\r\n\r\n") (strBytes "x")
    (strBytes "A\r\nHost: x\r\n\r\n") rfl

/-- C8: with at least 4096 bytes available, the sniffer fails with
`HeaderTooLarge` exactly when the line scanner cannot locate a `Host`
header within the first 4096 bytes; on shorter streams `HeaderTooLarge`
never occurs; a `Host` header whose CR is the 4096th byte succeeds,
and one whose CR is one byte past fails with `HeaderTooLarge`. -/
theorem header_too_large_boundary :
    (∀ input : List Nat, 4096 ≤ input.length →
      (parse_domain input = .headerTooLarge ↔
        ∀ v, scanStep input 4096 .start ≠ .inr v)) ∧
    (∀ input : List Nat, input.length < 4096 →
      parse_domain input ≠ .headerTooLarge) ∧
    (∃ d b, parse_domain (hostBoundaryInput 4087) = .done d b) ∧
    parse_domain (hostBoundaryInput 4088) = .headerTooLarge := by
  refine ⟨?_, ?_, ⟨_, _, hostBoundary_ok_parse⟩, hostBoundary_bad_parse⟩
  · intro input hlen
    constructor
    · intro h v hv
      obtain ⟨_, st2, hst⟩ := parse_tooLarge_char input h
      rw [hst] at hv
      cases hv
    · intro hnot
      cases hfin : scanStep input 4096 .start with
      | inr v => exact absurd hfin (hnot v)
      | inl st0 =>
        have h1 : ∀ v, scanStep input 1024 .start ≠ .inr v := by
          intro v h
          have := scanStep_mono_succ input 1024 4096 .start v (by omega) h
          rw [hfin] at this
          cases this
        have h2 : ∀ v, scanStep input 2048 .start ≠ .inr v := by
          intro v h
          have := scanStep_mono_succ input 2048 4096 .start v (by omega) h
          rw [hfin] at this
          cases this
        rw [parse_run_full input hlen h1 h2]
        simp only [hfin]
  · intro input hlen h
    obtain ⟨h4096, _⟩ := parse_tooLarge_char input h
    omega

theorem header_too_large_boundary_witness :
    parse_domain [7] ≠ .headerTooLarge :=
  header_too_large_boundary.2.1 [7] (by decide)

end HttpForward
